import Mathlib

/-!
Verification development for the `pi_approximieren` repository: a Monte-Carlo
π estimator in two variants.

* `Chunked` embeds `src/main.rs`: bounded-size chunking over Rayon
  (`approximiere_pi`, `validate_tropfenzahl`, `berechne_pi`).
* `Split` embeds `src/src/main.rs`: equal split of the sample count over the
  available threads with live progress aggregation (`PiRechner`,
  `verarbeite_batch`, `berechne_pi`, `main`).

Machine integers (`u64`/`usize`) are modelled as `Nat`; the quantities involved
never overflow in the statements proved here.  The `f64` expression
`4.0 * hits / total` is modelled over exact rationals extended with the IEEE
special values NaN and ±∞ (`FVal`): the rounding of finite `f64` arithmetic is
abstracted away, the zero-divisor structure (which is all the claims about the
aggregation formula depend on) is preserved.  Random coordinates are modelled
as arbitrary rationals, so every statement quantifies over all possible drawn
points.
-/

namespace PiApprox

/-- `const MIN_TROPFEN: u64 = 1000` (src/main.rs line 10). -/
def MIN_TROPFEN : ℕ := 1000

/-- `const DEFAULT_TROPFEN: u64 = 1_000_000` (src/main.rs line 11). -/
def DEFAULT_TROPFEN : ℕ := 1000000

/-- `const CHUNK_SIZE: u64 = 10_000` (src/main.rs line 12). -/
def CHUNK_SIZE : ℕ := 10000

/-- Model of an `f64` value as produced by the aggregation expression:
either a finite value (exact rational, rounding abstracted), NaN, or ±∞. -/
inductive FVal : Type where
  | fin (q : ℚ) : FVal
  | nan : FVal
  | inf : FVal
  | ninf : FVal
deriving DecidableEq

/-- The value is finite and lies in the closed interval `[0, 4]`. -/
def inZeroFour (v : FVal) : Prop :=
  ∃ q : ℚ, v = FVal.fin q ∧ 0 ≤ q ∧ q ≤ 4

/-- IEEE-754 division of finite operands: `0/0` is NaN, `±a/0` is `±∞` for
`a ≠ 0`, and otherwise the finite quotient (exact rational model). -/
def fdiv (a b : ℚ) : FVal :=
  if b = 0 then
    (if a = 0 then FVal.nan else if 0 < a then FVal.inf else FVal.ninf)
  else FVal.fin (a / b)

/-- Rust `str::parse::<u64>` on a trimmed input: an optional leading `+`,
then at least one ASCII digit, and the value must fit in 64 bits; anything
else is a parse error (`none`). -/
def parse_u64 (s : String) : Option ℕ :=
  let cs :=
    match s.toList with
    | '+' :: rest => rest
    | other => other
  if cs.isEmpty then none
  else if cs.all (fun c => c.isDigit) then
    let n := cs.foldl (fun acc c => acc * 10 + (c.toNat - 48)) 0
    if n < 2 ^ 64 then some n else none
  else none

/-! ## Variant `Chunked` — src/main.rs -/

namespace Chunked

/-- The classification in the sampling loop of `approximiere_pi`
(src/main.rs line 59): `x * x + y * y <= 1.0`. -/
def im_kreis (x y : ℚ) : Bool := decide (x * x + y * y ≤ 1)

/-- `chunk_size` in `approximiere_pi` (src/main.rs lines 36–38):
`(tropfenzahl / (threads as u64 * 10)).max(CHUNK_SIZE).min(tropfenzahl)`. -/
def chunk_size (tropfenzahl threads : ℕ) : ℕ :=
  min (max (tropfenzahl / (threads * 10)) CHUNK_SIZE) tropfenzahl

/-- Rust's `(start..stop).step_by(step)` iterator as a list of the visited
values (`step_by` requires a positive step; for `step = 0` the model returns
`[]`, a case never reached under the hypotheses used below). -/
def stepBy (start stop step : ℕ) : List ℕ :=
  if h : 0 < step ∧ start < stop then start :: stepBy (start + step) stop step
  else []
termination_by stop - start
decreasing_by omega

/-- `chunks` in `approximiere_pi` (src/main.rs lines 41–43): the start index
of every chunk, `(0..tropfenzahl).step_by(chunk_size)`. -/
def chunks (tropfenzahl threads : ℕ) : List ℕ :=
  stepBy 0 tropfenzahl (chunk_size tropfenzahl threads)

/-- Each worker derives its half-open index range from the start index
(src/main.rs line 50): `end = (start + chunk_size).min(tropfenzahl)`. -/
def intervals (tropfenzahl threads : ℕ) : List (ℕ × ℕ) :=
  (chunks tropfenzahl threads).map
    (fun start => (start, min (start + chunk_size tropfenzahl threads) tropfenzahl))

/-- The chunk lengths, in emission order. -/
def sizes (tropfenzahl threads : ℕ) : List ℕ :=
  (intervals tropfenzahl threads).map (fun p => p.2 - p.1)

/-- `local_count` for one chunk (src/main.rs lines 49–62): the number of the
chunk's drawn points that satisfy the quarter-circle test. -/
def local_count (punkte : List (ℚ × ℚ)) : ℕ :=
  (punkte.filter (fun p => im_kreis p.1 p.2)).length

/-- The returned estimate (src/main.rs line 70):
`4.0 * (counter as f64) / (tropfenzahl as f64)`. -/
def approximiere_pi_result (tropfenzahl counter : ℕ) : FVal :=
  fdiv (4 * (counter : ℚ)) (tropfenzahl : ℚ)

/-- `validate_tropfenzahl` (src/main.rs lines 83–89). -/
def validate_tropfenzahl (input : String) : Except String ℕ :=
  match parse_u64 input with
  | some n =>
      if MIN_TROPFEN ≤ n then Except.ok n
      else Except.error "Tropfenzahl muss mindestens 1000 sein."
  | none => Except.error "Ungueltige Eingabe. Bitte geben Sie eine ganze Zahl ein."

/-- The sample count `berechne_pi` actually runs with (src/main.rs
lines 97–100): the validated value, or `DEFAULT_TROPFEN` on any error. -/
def tropfenzahl_used (input : String) : ℕ :=
  match validate_tropfenzahl input with
  | Except.ok n => n
  | Except.error _ => DEFAULT_TROPFEN

end Chunked

/-! ## Variant `Split` — src/src/main.rs -/

namespace Split

/-- The classification in `verarbeite_batch` (src/src/main.rs line 79):
`x * x + y * y <= 1.0`. -/
def im_kreis (x y : ℚ) : Bool := decide (x * x + y * y ≤ 1)

/-- `punkte_pro_thread` (src/src/main.rs line 180):
`gesamt_punkte / thread_anzahl`, integer division, remainder dropped. -/
def punkte_pro_thread (gesamt_punkte thread_anzahl : ℕ) : ℕ :=
  gesamt_punkte / thread_anzahl

/-- The per-worker sample-count assignment (src/src/main.rs lines 211–226):
every one of the `thread_anzahl` workers is assigned `punkte_pro_thread`
samples. -/
def zuweisung (gesamt_punkte thread_anzahl : ℕ) : List ℕ :=
  List.replicate thread_anzahl (punkte_pro_thread gesamt_punkte thread_anzahl)

/-- The batch sizes one worker's loop produces (src/src/main.rs lines
212–225): repeatedly `10_000.min(verbleibend)` until the assigned count is
exhausted. -/
def batch_sizes (punkte : ℕ) : List ℕ :=
  if h : 0 < punkte then min 10000 punkte :: batch_sizes (punkte - min 10000 punkte)
  else []
termination_by punkte
decreasing_by omega

/-- The final value of the shared `punkte_gesamt` counter after all workers
join: each of the `thread_anzahl` workers contributes the sum of its batch
sizes. -/
def final_total (gesamt_punkte thread_anzahl : ℕ) : ℕ :=
  ((List.range thread_anzahl).map
    (fun _ => (batch_sizes (punkte_pro_thread gesamt_punkte thread_anzahl)).sum)).sum

/-- `lokale_treffer` after the loop of `verarbeite_batch` (src/src/main.rs
lines 70–82): the number of the batch's drawn points inside the
quarter circle. -/
def lokale_treffer (batch : List (ℚ × ℚ)) : ℕ :=
  (batch.filter (fun p => im_kreis p.1 p.2)).length

/-- `PiRechner::berechne_pi` (src/src/main.rs lines 60–64):
`4.0 * innen / gesamt` over the loaded counter values. -/
def berechne_pi (punkte_innen punkte_gesamt : ℕ) : FVal :=
  fdiv (4 * (punkte_innen : ℚ)) (punkte_gesamt : ℚ)

/-- The contiguous index blocks induced by the equal split: worker `i`
processes the `i`-th block of `punkte_pro_thread` samples.  (The code tracks
only per-worker counts; the blocks make the coverage statement explicit.) -/
def ranges (gesamt_punkte thread_anzahl : ℕ) : List (ℕ × ℕ) :=
  (List.range thread_anzahl).map
    (fun i => (i * punkte_pro_thread gesamt_punkte thread_anzahl,
               (i + 1) * punkte_pro_thread gesamt_punkte thread_anzahl))

/-! ### Fine-grained publish model for the shared counters

`verarbeite_batch` publishes in two separate atomic operations, in source
order: first `punkte_innen.fetch_add(lokale_treffer)` (line 85), then
`punkte_gesamt.fetch_add(batch_größe)` (line 87).  An observation point of a
concurrent run is therefore described by, for every batch, which of its two
additions have already executed; the only ordering constraint is that a
batch's total-add cannot precede its hit-add. -/

/-- An observation of a run: for each batch, whether its hit-counter addition
and its total-counter addition have executed. -/
def obsValid (masks : List (Bool × Bool)) : Prop :=
  ∀ m ∈ masks, m.2 = true → m.1 = true

/-- The hit counter at an observation point: the sum of `lokale_treffer` over
the batches whose hit-counter addition has executed. -/
def obsHits (batches : List (List (ℚ × ℚ))) (masks : List (Bool × Bool)) : ℕ :=
  (((batches.zip masks).filter (fun x => x.2.1)).map
    (fun x => lokale_treffer x.1)).sum

/-- The total counter at an observation point: the sum of batch sizes over
the batches whose total-counter addition has executed. -/
def obsTotal (batches : List (List (ℚ × ℚ))) (masks : List (Bool × Bool)) : ℕ :=
  (((batches.zip masks).filter (fun x => x.2.2)).map
    (fun x => x.1.length)).sum

end Split

/-! ## Supporting lemmas -/

lemma ceil_div_succ (d step : ℕ) (hstep : 0 < step) (hd : 1 ≤ d) :
    (d + step - 1) / step = (d - step + step - 1) / step + 1 := by
  rcases le_or_lt d step with hle | hlt
  · have h1 : d - step + step - 1 = step - 1 := by omega
    rw [h1, Nat.div_eq_of_lt (show step - 1 < step by omega)]
    have h3 : d + step - 1 = (d - 1) + step := by omega
    rw [h3, Nat.add_div_right _ hstep, Nat.div_eq_of_lt (show d - 1 < step by omega)]
  · have h3 : d + step - 1 = (d - 1 - step) + step + step := by omega
    have h4 : d - step + step - 1 = (d - 1 - step) + step := by omega
    rw [h3, h4, Nat.add_div_right _ hstep, Nat.add_div_right _ hstep]

lemma stepBy_eq_range' (step : ℕ) (hstep : 0 < step) (start stop : ℕ) :
    Chunked.stepBy start stop step =
      List.range' start ((stop - start + step - 1) / step) step := by
  suffices h : ∀ d start stop, stop - start ≤ d →
      Chunked.stepBy start stop step =
        List.range' start ((stop - start + step - 1) / step) step by
    exact h (stop - start) start stop le_rfl
  intro d
  induction d with
  | zero =>
      intro start stop hle
      rw [Chunked.stepBy, dif_neg (by omega : ¬(0 < step ∧ start < stop))]
      have h0 : stop - start = 0 := by omega
      rw [h0, Nat.div_eq_of_lt (show 0 + step - 1 < step by omega), List.range'_zero]
  | succ d ih =>
      intro start stop hle
      rw [Chunked.stepBy]
      by_cases hlt : start < stop
      · rw [dif_pos ⟨hstep, hlt⟩, ih (start + step) stop (by omega)]
        have hs : stop - (start + step) = stop - start - step := by omega
        rw [hs, ceil_div_succ (stop - start) step hstep (by omega), List.range'_succ]
      · rw [dif_neg (by omega : ¬(0 < step ∧ start < stop))]
        have h0 : stop - start = 0 := by omega
        rw [h0, Nat.div_eq_of_lt (show 0 + step - 1 < step by omega), List.range'_zero]

lemma chunk_size_pos (N T : ℕ) (hN : 1 ≤ N) : 1 ≤ Chunked.chunk_size N T := by
  unfold Chunked.chunk_size
  exact Nat.le_min.mpr ⟨le_trans (by norm_num [CHUNK_SIZE]) (Nat.le_max_right _ _), hN⟩

lemma chunk_size_le (N T : ℕ) : Chunked.chunk_size N T ≤ N :=
  Nat.min_le_right _ _

lemma chunks_eq_range' (N T : ℕ) (hN : 1 ≤ N) :
    Chunked.chunks N T =
      List.range' 0 ((N + Chunked.chunk_size N T - 1) / Chunked.chunk_size N T)
        (Chunked.chunk_size N T) := by
  unfold Chunked.chunks
  rw [stepBy_eq_range' _ (chunk_size_pos N T hN), Nat.sub_zero]

/-- For `N ≥ 1` the number of chunks is `(N - 1) / cs + 1`. -/
lemma ceil_eq_pred_div_succ (N cs : ℕ) (hN : 1 ≤ N) (hcs : 1 ≤ cs) :
    (N + cs - 1) / cs = (N - 1) / cs + 1 := by
  have h : N + cs - 1 = (N - 1) + cs := by omega
  rw [h, Nat.add_div_right _ hcs]

lemma batch_sizes_sum (p : ℕ) : (Split.batch_sizes p).sum = p := by
  suffices h : ∀ d p, p ≤ d → (Split.batch_sizes p).sum = p from h p p le_rfl
  intro d
  induction d with
  | zero =>
      intro p hle
      rw [Split.batch_sizes, dif_neg (by omega)]
      simp only [List.sum_nil]
      omega
  | succ d ih =>
      intro p hle
      rw [Split.batch_sizes]
      by_cases hp : 0 < p
      · rw [dif_pos hp, List.sum_cons, ih (p - min 10000 p) (by omega)]
        omega
      · rw [dif_neg hp]
        simp only [List.sum_nil]
        omega

lemma final_total_eq (N T : ℕ) : Split.final_total N T = T * (N / T) := by
  unfold Split.final_total
  rw [List.map_const']
  rw [List.sum_replicate, List.length_range, batch_sizes_sum, smul_eq_mul]
  rfl

lemma sum_le_sum_forall2 {ks ss : List ℕ} (h : List.Forall₂ (· ≤ ·) ks ss) :
    ks.sum ≤ ss.sum := by
  induction h with
  | nil => simp
  | cons h₁ _ ih => simp only [List.sum_cons]; omega

lemma range'_eq_map_mul (n step : ℕ) :
    List.range' 0 n step = (List.range n).map (fun i => step * i) := by
  apply List.ext_getElem
  · simp
  · intro i h1 h2
    simp [List.getElem_range']

lemma chunked_intervals_eq (N T : ℕ) (hN : 1 ≤ N) :
    Chunked.intervals N T =
      (List.range ((N + Chunked.chunk_size N T - 1) / Chunked.chunk_size N T)).map
        (fun i => (Chunked.chunk_size N T * i,
          min (Chunked.chunk_size N T * i + Chunked.chunk_size N T) N)) := by
  unfold Chunked.intervals
  rw [chunks_eq_range' N T hN, range'_eq_map_mul, List.map_map]
  rfl

lemma lt_mul_div_add (x cs : ℕ) (hcs : 0 < cs) : x < cs * (x / cs) + cs := by
  have h1 := Nat.div_add_mod x cs
  have h2 := Nat.mod_lt x hcs
  omega

lemma mul_pred_div_lt (N cs : ℕ) (hN : 1 ≤ N) (hcs : 0 < cs) {i : ℕ}
    (hi : i ≤ (N - 1) / cs) : cs * i < N := by
  have h2 : cs * i ≤ cs * ((N - 1) / cs) := Nat.mul_le_mul_left _ hi
  have h3 : (N - 1) / cs * cs ≤ N - 1 := Nat.div_mul_le_self _ _
  have h4 : cs * ((N - 1) / cs) = (N - 1) / cs * cs := Nat.mul_comm _ _
  omega

lemma stepBy_sizes_sum (step : ℕ) (hstep : 0 < step) (start stop : ℕ) :
    ((Chunked.stepBy start stop step).map (fun s => min (s + step) stop - s)).sum
      = stop - start := by
  suffices h : ∀ d start stop, stop - start ≤ d →
      ((Chunked.stepBy start stop step).map (fun s => min (s + step) stop - s)).sum
        = stop - start from h (stop - start) start stop le_rfl
  intro d
  induction d with
  | zero =>
      intro start stop hle
      rw [Chunked.stepBy, dif_neg (by omega : ¬(0 < step ∧ start < stop))]
      simp only [List.map_nil, List.sum_nil]
      omega
  | succ d ih =>
      intro start stop hle
      rw [Chunked.stepBy]
      by_cases hlt : start < stop
      · rw [dif_pos ⟨hstep, hlt⟩]
        simp only [List.map_cons, List.sum_cons]
        rw [ih (start + step) stop (by omega)]
        rcases le_total (start + step) stop with hc | hc
        · rw [min_eq_left hc]
          omega
        · rw [min_eq_right hc]
          omega
      · rw [dif_neg (by omega : ¬(0 < step ∧ start < stop))]
        simp only [List.map_nil, List.sum_nil]
        omega

lemma chunked_sizes_sum (N T : ℕ) (hN : 1 ≤ N) : (Chunked.sizes N T).sum = N := by
  unfold Chunked.sizes Chunked.intervals Chunked.chunks
  rw [List.map_map]
  have h := stepBy_sizes_sum (Chunked.chunk_size N T) (chunk_size_pos N T hN) 0 N
  simpa using h

lemma fdiv_four_in_range (h t : ℕ) (ht : 0 < t) (hle : h ≤ t) :
    inZeroFour (fdiv (4 * (h : ℚ)) (t : ℚ)) := by
  refine ⟨4 * (h : ℚ) / (t : ℚ), ?_, ?_, ?_⟩
  · unfold fdiv
    rw [if_neg (show ((t : ℚ)) ≠ 0 from Nat.cast_ne_zero.mpr (by omega))]
  · positivity
  · rw [div_le_iff₀ (by exact_mod_cast ht)]
    have hc : (h : ℚ) ≤ (t : ℚ) := by exact_mod_cast hle
    linarith

/-! ## Claims -/

/-- C1, counterexample: at `N = 5`, `T = 2` the equal-split variant assigns
`[2, 2]`: the last worker gets `N / T = 2` samples, not
`N / T + N % T = 3`, and the assigned sizes sum to `4`, not `N = 5`. -/
theorem c1_counterexample :
    Split.zuweisung 5 2 = [2, 2] ∧
    (2 : ℕ) ≠ 5 / 2 + 5 % 2 ∧
    (Split.zuweisung 5 2).sum ≠ 5 := by
  decide

/-- C1 (amended): under the equal split of `src/src/main.rs`, for `N ≥ 1` and
`T ≥ 1` every one of the `T` workers — the last included — is assigned exactly
`N / T` samples; the leftover `N mod T` samples are assigned to no worker, so
the `T` chunk sizes sum to `N - N mod T`. -/
theorem c1_equal_split (N T : ℕ) (hN : 1 ≤ N) (hT : 1 ≤ T) :
    (Split.zuweisung N T).length = T ∧
    (∀ s ∈ Split.zuweisung N T, s = N / T) ∧
    (Split.zuweisung N T).sum = N - N % T := by
  refine ⟨by simp [Split.zuweisung], ?_, ?_⟩
  · intro s hs
    exact List.eq_of_mem_replicate hs
  · unfold Split.zuweisung Split.punkte_pro_thread
    rw [List.sum_replicate, smul_eq_mul]
    have h := Nat.div_add_mod N T
    omega

/-- C1, witness at `N = 7`, `T = 3`. -/
theorem c1_witness :
    (Split.zuweisung 7 3).length = 3 ∧
    (∀ s ∈ Split.zuweisung 7 3, s = 7 / 3) ∧
    (Split.zuweisung 7 3).sum = 7 - 7 % 3 :=
  c1_equal_split 7 3 (by norm_num) (by norm_num)

/-- C2: the claim's final value fails on the code.  At `N = 5`, `T = 2` the
global total counter ends at `T * (N / T) = 4`, not at `N = 5`: each worker
processes exactly `N / T` samples and the remainder is never generated. -/
theorem c2_final_total :
    Split.final_total 5 2 = 4 ∧ (4 : ℕ) ≠ 5 := by
  rw [final_total_eq]
  norm_num

/-- C3: the input `"0"` is not rejected by the progress-display variant
(`src/src/main.rs`): it parses successfully, every worker is assigned
`0 / T = 0` samples, the total counter ends at `0`, and the aggregation
`4.0 * 0 / 0` evaluates to NaN. -/
theorem c3_zero_not_rejected :
    parse_u64 "0" = some 0 ∧
    Split.punkte_pro_thread 0 2 = 0 ∧
    Split.final_total 0 2 = 0 ∧
    Split.berechne_pi 0 0 = FVal.nan := by
  refine ⟨by decide, by decide, by rw [final_total_eq], ?_⟩
  simp [Split.berechne_pi, fdiv]

/-- C5: the aggregator computes `4 × hits / total`; with the counters
satisfying `hits ≤ total`, a zero total yields NaN and a positive total
yields the finite value `4 · hits / total`. -/
theorem c5_aggregator (innen gesamt : ℕ) (h : innen ≤ gesamt) :
    (gesamt = 0 → Split.berechne_pi innen gesamt = FVal.nan) ∧
    (0 < gesamt → ∃ q : ℚ, Split.berechne_pi innen gesamt = FVal.fin q ∧
        q = 4 * (innen : ℚ) / (gesamt : ℚ)) := by
  constructor
  · intro h0
    subst h0
    have h1 : innen = 0 := by omega
    subst h1
    simp [Split.berechne_pi, fdiv]
  · intro h0
    refine ⟨4 * (innen : ℚ) / (gesamt : ℚ), ?_, rfl⟩
    unfold Split.berechne_pi fdiv
    rw [if_neg (show ((gesamt : ℚ)) ≠ 0 from Nat.cast_ne_zero.mpr (by omega))]

/-- C5, witness at `(innen, gesamt) = (0, 0)` and `(3, 4)`. -/
theorem c5_witness :
    Split.berechne_pi 0 0 = FVal.nan ∧
    ∃ q : ℚ, Split.berechne_pi 3 4 = FVal.fin q ∧ q = 4 * (3 : ℚ) / (4 : ℚ) :=
  ⟨(c5_aggregator 0 0 le_rfl).1 rfl, (c5_aggregator 3 4 (by norm_num)).2 (by norm_num)⟩

/-- C6: `validate_tropfenzahl` returns `Ok n` exactly when the input parses
as a `u64` value `n` with `n ≥ MIN_TROPFEN = 1000`; on any error
`berechne_pi` falls back to `DEFAULT_TROPFEN = 1 000 000`, so the count the
core runs with is always at least the threshold. -/
theorem c6_validation (input : String) :
    (∀ n, Chunked.validate_tropfenzahl input = Except.ok n ↔
        (parse_u64 input = some n ∧ MIN_TROPFEN ≤ n)) ∧
    ((∃ e, Chunked.validate_tropfenzahl input = Except.error e) →
        Chunked.tropfenzahl_used input = DEFAULT_TROPFEN) ∧
    MIN_TROPFEN ≤ Chunked.tropfenzahl_used input := by
  unfold Chunked.tropfenzahl_used Chunked.validate_tropfenzahl
  cases hp : parse_u64 input with
  | none =>
      refine ⟨fun n => by simp, fun _ => rfl, by norm_num [MIN_TROPFEN, DEFAULT_TROPFEN]⟩
  | some m =>
      dsimp only
      by_cases hm : MIN_TROPFEN ≤ m
      · rw [if_pos hm]
        refine ⟨fun n => ?_, fun he => ?_, hm⟩
        · constructor
          · intro hokn
            injection hokn with h1
            subst h1
            exact ⟨rfl, hm⟩
          · rintro ⟨h1, _⟩
            injection h1 with h1
            subst h1
            rfl
        · obtain ⟨e, he⟩ := he
          cases he
      · rw [if_neg hm]
        refine ⟨fun n => ?_, fun _ => rfl, by norm_num [MIN_TROPFEN, DEFAULT_TROPFEN]⟩
        constructor
        · intro hokn
          cases hokn
        · rintro ⟨h1, h2⟩
          injection h1 with h1
          subst h1
          exact absurd h2 hm

/-- C6, witness: `"2000"` validates to `Ok 2000`; the unparsable `"abc"`
falls back to a count that still meets the threshold. -/
theorem c6_witness :
    Chunked.validate_tropfenzahl "2000" = Except.ok 2000 ∧
    MIN_TROPFEN ≤ Chunked.tropfenzahl_used "abc" :=
  ⟨((c6_validation "2000").1 2000).mpr ⟨by decide, by decide⟩,
   (c6_validation "abc").2.2⟩

/-- C8: both variants classify a drawn point `(x, y)` as inside the quarter
circle exactly when `x² + y² ≤ 1`, the boundary included, and the two
classification rules are literally the same predicate. -/
theorem c8_classification (x y : ℚ) :
    (Chunked.im_kreis x y = true ↔ x * x + y * y ≤ 1) ∧
    (x * x + y * y = 1 → Chunked.im_kreis x y = true) ∧
    Chunked.im_kreis x y = Split.im_kreis x y := by
  refine ⟨by simp [Chunked.im_kreis], fun h => ?_, rfl⟩
  simp [Chunked.im_kreis, h]

/-- C8, witness at the boundary point `(1, 0)`. -/
theorem c8_witness :
    Chunked.im_kreis 1 0 = Split.im_kreis 1 0 ∧ Chunked.im_kreis 1 0 = true :=
  ⟨(c8_classification 1 0).2.2, (c8_classification 1 0).2.1 (by norm_num)⟩

/-- C9, counterexample: `verarbeite_batch` adds to the hit counter before the
total counter, so the observation point between the two additions of a single
batch — one point `(0, 0)`, inside the circle — shows `hits = 1 > total = 0`.
The mask `(true, false)` is a valid observation: only a batch's total-add
happening before its hit-add is impossible. -/
theorem c9_counterexample :
    Split.obsValid [(true, false)] ∧
    Split.obsHits [[((0 : ℚ), (0 : ℚ))]] [(true, false)] = 1 ∧
    Split.obsTotal [[((0 : ℚ), (0 : ℚ))]] [(true, false)] = 0 ∧
    ¬(Split.obsHits [[((0 : ℚ), (0 : ℚ))]] [(true, false)] ≤
        Split.obsTotal [[((0 : ℚ), (0 : ℚ))]] [(true, false)]) := by
  have h1 : Split.obsHits [[((0 : ℚ), (0 : ℚ))]] [(true, false)] = 1 := by
    norm_num [Split.obsHits, Split.lokale_treffer, Split.im_kreis,
      List.zip_cons_cons, List.filter_cons]
  have h2 : Split.obsTotal [[((0 : ℚ), (0 : ℚ))]] [(true, false)] = 0 := by
    norm_num [Split.obsTotal, List.zip_cons_cons, List.filter_cons]
  exact ⟨by unfold Split.obsValid; decide, h1, h2, by omega⟩

/-- C9 (amended): `0 ≤ hits ≤ total` holds at every observation point at
which no batch publish is in flight — every batch has executed either both
or neither of its two atomic additions.  Between a batch's hit-counter add
and its total-counter add the invariant can fail (see the counterexample),
because the code publishes hits first. -/
theorem c9_bounds (batches : List (List (ℚ × ℚ))) (masks : List (Bool × Bool))
    (hv : Split.obsValid masks)
    (hc : ∀ m ∈ masks, m.1 = true → m.2 = true) :
    Split.obsHits batches masks ≤ Split.obsTotal batches masks := by
  induction batches generalizing masks with
  | nil => simp [Split.obsHits, Split.obsTotal]
  | cons b bs ih =>
      cases masks with
      | nil => simp [Split.obsHits, Split.obsTotal]
      | cons m ms =>
          have hv' : Split.obsValid ms := fun x hx => hv x (List.mem_cons_of_mem _ hx)
          have hc' : ∀ x ∈ ms, x.1 = true → x.2 = true :=
            fun x hx => hc x (List.mem_cons_of_mem _ hx)
          have htl := ih ms hv' hc'
          rcases m with ⟨m1, m2⟩
          have hm : m1 = m2 := by
            have h1 := hv (m1, m2) (List.mem_cons_self _ _)
            have h2 := hc (m1, m2) (List.mem_cons_self _ _)
            cases m1 <;> cases m2 <;> simp_all
          subst hm
          have hb : Split.lokale_treffer b ≤ b.length := List.length_filter_le _ _
          cases m1 with
          | false =>
              simpa [Split.obsHits, Split.obsTotal, List.filter_cons] using htl
          | true =>
              simp only [Split.obsHits, Split.obsTotal, List.zip_cons_cons,
                List.filter_cons, decide_eq_true_eq, if_pos, List.map_cons,
                List.sum_cons] at htl ⊢
              omega

/-- C9, witness: a fully published single batch of one point. -/
theorem c9_witness :
    Split.obsValid [(true, true)] ∧
    Split.obsHits [[((0 : ℚ), (0 : ℚ))]] [(true, true)] ≤
      Split.obsTotal [[((0 : ℚ), (0 : ℚ))]] [(true, true)] :=
  ⟨fun m hm _ => by simp_all, c9_bounds _ _ (fun m hm _ => by simp_all) (by decide)⟩

/-- C4, counterexample: at `N = 5`, `T = 2` the equal-split variant's two
blocks are `[0, 2)` and `[2, 4)`; index `4 ∈ [0, 5)` is covered by neither,
so the union of the emitted chunks is not `[0, N)`. -/
theorem c4_counterexample :
    Split.ranges 5 2 = [(0, 2), (2, 4)] ∧
    ((Split.ranges 5 2).all
      (fun p => !(decide (p.1 ≤ 4) && decide (4 < p.2)))) = true ∧
    (4 : ℕ) < 5 := by
  refine ⟨?_, ?_, by norm_num⟩ <;> decide

/-- C4 (amended): for `N ≥ 1`, `T ≥ 1` the bounded-chunking partitioner of
`src/main.rs` emits pairwise-disjoint nonempty contiguous ranges whose union
is exactly `[0, N)`; the equal-split variant of `src/src/main.rs` emits
pairwise-disjoint contiguous per-worker blocks whose union is exactly
`[0, T·(N/T))`, leaving the trailing `N mod T` indices uncovered whenever
`T` does not divide `N`. -/
theorem c4_partition (N T : ℕ) (hN : 1 ≤ N) (hT : 1 ≤ T) :
    (Chunked.intervals N T).Pairwise (fun p q => p.2 ≤ q.1 ∨ q.2 ≤ p.1) ∧
    (∀ p ∈ Chunked.intervals N T, p.1 < p.2) ∧
    (∀ x, (∃ p ∈ Chunked.intervals N T, p.1 ≤ x ∧ x < p.2) ↔ x < N) ∧
    (∀ x, (∃ p ∈ Split.ranges N T, p.1 ≤ x ∧ x < p.2) ↔ x < T * (N / T)) := by
  have hcs : 0 < Chunked.chunk_size N T := chunk_size_pos N T hN
  set cs := Chunked.chunk_size N T with hcs_def
  have hqe : (N + cs - 1) / cs = (N - 1) / cs + 1 :=
    ceil_eq_pred_div_succ N cs hN hcs
  have hIe := chunked_intervals_eq N T hN
  rw [← hcs_def] at hIe
  refine ⟨?_, ?_, ?_, ?_⟩
  · rw [hIe, List.pairwise_map, List.pairwise_iff_getElem]
    intro i j hi hj hij
    simp only [List.getElem_range]
    left
    calc min (cs * i + cs) N ≤ cs * i + cs := Nat.min_le_left _ _
      _ = cs * (i + 1) := by ring
      _ ≤ cs * j := Nat.mul_le_mul_left _ (by omega)
  · rw [hIe]
    intro p hp
    obtain ⟨i, hi, rfl⟩ := List.mem_map.mp hp
    have hiq : i < (N + cs - 1) / cs := List.mem_range.mp hi
    have hlt : cs * i < N := mul_pred_div_lt N cs hN hcs (by omega)
    exact lt_min (by omega) hlt
  · intro x
    constructor
    · rintro ⟨p, hp, _, hx2⟩
      rw [hIe] at hp
      obtain ⟨i, _, rfl⟩ := List.mem_map.mp hp
      exact lt_of_lt_of_le hx2 (Nat.min_le_right _ _)
    · intro hx
      rw [hIe]
      refine ⟨(cs * (x / cs), min (cs * (x / cs) + cs) N),
        List.mem_map_of_mem _ (List.mem_range.mpr ?_), ?_, ?_⟩
      · have h1 : x / cs ≤ (N - 1) / cs := Nat.div_le_div_right (by omega)
        omega
      · have h2 : x / cs * cs ≤ x := Nat.div_mul_le_self _ _
        have h3 : cs * (x / cs) = x / cs * cs := Nat.mul_comm _ _
        omega
      · exact lt_min (lt_mul_div_add x cs hcs) hx
  · intro x
    unfold Split.ranges Split.punkte_pro_thread
    constructor
    · rintro ⟨p, hp, _, hx2⟩
      obtain ⟨i, hi, rfl⟩ := List.mem_map.mp hp
      have hiT : i < T := List.mem_range.mp hi
      calc x < (i + 1) * (N / T) := hx2
        _ ≤ T * (N / T) := Nat.mul_le_mul_right _ (by omega)
    · intro hx
      rcases Nat.eq_zero_or_pos (N / T) with h0 | hpos
      · rw [h0, Nat.mul_zero] at hx
        omega
      · refine ⟨(x / (N / T) * (N / T), (x / (N / T) + 1) * (N / T)),
          List.mem_map_of_mem _ (List.mem_range.mpr ?_), ?_, ?_⟩
        · exact (Nat.div_lt_iff_lt_mul hpos).mpr hx
        · exact Nat.div_mul_le_self _ _
        · have h1 := Nat.div_add_mod x (N / T)
          have h2 := Nat.mod_lt x hpos
          rw [Nat.add_mul, Nat.one_mul, Nat.mul_comm (x / (N / T)) (N / T)]
          omega

/-- C4, witness at `N = 1`, `T = 1`: index `0` is covered by a chunk. -/
theorem c4_witness : ∃ p ∈ Chunked.intervals 1 1, p.1 ≤ 0 ∧ 0 < p.2 :=
  ((c4_partition 1 1 le_rfl le_rfl).2.2.1 0).mpr (by norm_num)

/-- C7: for `N ≥ 1`, `T ≥ 1` the chunk size of `src/main.rs` equals
`N / (10·T)` clamped below by `10 000` and above by `N`, hence is never `0`;
the partitioner emits `⌈N / chunk_size⌉ = (N + chunk_size − 1) / chunk_size`
chunks, every chunk except the last has length `chunk_size`, and the final
chunk has length `N mod chunk_size` when `chunk_size` does not divide `N`
(and the full `chunk_size` when it does). -/
theorem c7_bounded_chunking (N T : ℕ) (hN : 1 ≤ N) (hT : 1 ≤ T) :
    Chunked.chunk_size N T = min (max (N / (10 * T)) 10000) N ∧
    1 ≤ Chunked.chunk_size N T ∧
    (Chunked.intervals N T).length =
      (N + Chunked.chunk_size N T - 1) / Chunked.chunk_size N T ∧
    Chunked.sizes N T =
      List.replicate ((N + Chunked.chunk_size N T - 1) / Chunked.chunk_size N T - 1)
          (Chunked.chunk_size N T) ++
        [if N % Chunked.chunk_size N T = 0 then Chunked.chunk_size N T
         else N % Chunked.chunk_size N T] := by
  have hcs : 0 < Chunked.chunk_size N T := chunk_size_pos N T hN
  have hcle : Chunked.chunk_size N T ≤ N := chunk_size_le N T
  set cs := Chunked.chunk_size N T with hcs_def
  have hqe : (N + cs - 1) / cs = (N - 1) / cs + 1 :=
    ceil_eq_pred_div_succ N cs hN hcs
  have hIe := chunked_intervals_eq N T hN
  rw [← hcs_def] at hIe
  have hsz : Chunked.sizes N T =
      (List.range ((N + cs - 1) / cs)).map (fun i => min (cs * i + cs) N - cs * i) := by
    unfold Chunked.sizes
    rw [hIe, List.map_map]
    rfl
  refine ⟨?_, hcs, ?_, ?_⟩
  · rw [hcs_def]
    unfold Chunked.chunk_size CHUNK_SIZE
    rw [Nat.mul_comm T 10]
  · rw [hIe]
    simp
  · rw [hsz, hqe, Nat.add_sub_cancel, List.range_succ, List.map_append,
      List.map_cons, List.map_nil]
    have hdm := Nat.div_add_mod N cs
    have hhead : (List.range ((N - 1) / cs)).map (fun i => min (cs * i + cs) N - cs * i)
        = List.replicate ((N - 1) / cs) cs := by
      refine List.eq_replicate_iff.mpr ⟨by simp, ?_⟩
      intro b hb
      obtain ⟨i, hi, rfl⟩ := List.mem_map.mp hb
      have hik : i < (N - 1) / cs := List.mem_range.mp hi
      have hfull : cs * i + cs ≤ N := by
        have h5 : cs * (i + 1) ≤ cs * ((N - 1) / cs) := Nat.mul_le_mul_left _ (by omega)
        have h6 : cs * (i + 1) = cs * i + cs := by ring
        have h7 : (N - 1) / cs * cs ≤ N - 1 := Nat.div_mul_le_self _ _
        have h8 : cs * ((N - 1) / cs) = (N - 1) / cs * cs := Nat.mul_comm _ _
        omega
      rw [Nat.min_eq_left hfull]
      omega
    have hlast : min (cs * ((N - 1) / cs) + cs) N - cs * ((N - 1) / cs)
        = if N % cs = 0 then cs else N % cs := by
      have hlow : cs * ((N - 1) / cs) < N := mul_pred_div_lt N cs hN hcs le_rfl
      have hhigh : N ≤ cs * ((N - 1) / cs) + cs := by
        have h6 := lt_mul_div_add (N - 1) cs hcs
        omega
      rw [Nat.min_eq_right hhigh]
      by_cases hr : N % cs = 0
      · rw [if_pos hr]
        obtain ⟨m0, hm0⟩ : ∃ m0, N / cs = m0 + 1 :=
          ⟨N / cs - 1, by
            have h9 : 1 ≤ N / cs := (Nat.one_le_div_iff hcs).mpr hcle
            omega⟩
        rw [hm0] at hdm
        have h7 : cs * (m0 + 1) = cs * m0 + cs := Nat.mul_succ cs m0
        have h8 : (N - 1) / cs = m0 ∧ (N - 1) % cs = cs - 1 :=
          (Nat.div_mod_unique hcs).mpr ⟨by omega, by omega⟩
        rw [h8.1]
        omega
      · rw [if_neg hr]
        have h9 : N % cs < cs := Nat.mod_lt _ hcs
        have h8 : (N - 1) / cs = N / cs ∧ (N - 1) % cs = N % cs - 1 :=
          (Nat.div_mod_unique hcs).mpr ⟨by omega, by omega⟩
        rw [h8.1]
        omega
    rw [hhead, hlast]

/-- C7, witness at `N = 25000`, `T = 1`: the chunk size is clamped up to the
floor `10 000`, and three chunks `[10000, 10000, 5000]` are emitted. -/
theorem c7_witness :
    Chunked.chunk_size 25000 1 = 10000 ∧
    (Chunked.intervals 25000 1).length = 3 ∧
    Chunked.sizes 25000 1 = [10000, 10000, 5000] := by
  have h := c7_bounded_chunking 25000 1 (by norm_num) (by norm_num)
  have h1 : Chunked.chunk_size 25000 1 = 10000 := by
    rw [h.1]
    decide
  refine ⟨h1, ?_, ?_⟩
  · rw [h.2.2.1, h1]
  · rw [h.2.2.2, h1]
    decide

/-- C10, counterexample: `N = 1` is a valid run by the claim's precondition,
but in the equal-split variant with `T = 2` threads every worker is assigned
`1 / 2 = 0` samples, the final total counter is `0`, and the returned
estimate is NaN — not a value in `[0, 4]`. -/
theorem c10_counterexample :
    Split.final_total 1 2 = 0 ∧
    Split.berechne_pi 0 (Split.final_total 1 2) = FVal.nan ∧
    ¬inZeroFour (Split.berechne_pi 0 (Split.final_total 1 2)) := by
  have h0 : Split.final_total 1 2 = 0 := by rw [final_total_eq]
  have h1 : Split.berechne_pi 0 0 = FVal.nan := by simp [Split.berechne_pi, fdiv]
  refine ⟨h0, by rw [h0, h1], ?_⟩
  rw [h0, h1]
  rintro ⟨r, hr, _⟩
  cases hr

/-- C10 (amended): the estimate is a finite value in `[0, 4]` whenever the
divisor of `4·hits/total` is positive: in the bounded-chunking variant for
every `N ≥ 1` (the divisor is `N` itself and each chunk's local count is at
most its length), and in the equal-split variant whenever `T ≤ N` (so that
the final total `T·(N/T)` is positive) and `hits ≤ total`. -/
theorem c10_range :
    (∀ N T ks, 1 ≤ N → 1 ≤ T → List.Forall₂ (· ≤ ·) ks (Chunked.sizes N T) →
        inZeroFour (Chunked.approximiere_pi_result N ks.sum)) ∧
    (∀ N T hits, 1 ≤ T → T ≤ N → hits ≤ Split.final_total N T →
        inZeroFour (Split.berechne_pi hits (Split.final_total N T))) := by
  constructor
  · intro N T ks hN hT hf
    have hsum : ks.sum ≤ N := by
      have h1 := sum_le_sum_forall2 hf
      rwa [chunked_sizes_sum N T hN] at h1
    unfold Chunked.approximiere_pi_result
    exact fdiv_four_in_range ks.sum N (by omega) hsum
  · intro N T hits hT hTN hh
    have hpos : 0 < Split.final_total N T := by
      rw [final_total_eq]
      have h1 : 1 ≤ N / T := (Nat.one_le_div_iff (by omega)).mpr hTN
      exact Nat.mul_pos (by omega) h1
    unfold Split.berechne_pi
    exact fdiv_four_in_range hits (Split.final_total N T) hpos hh

/-- C10, witness: one full chunk of one hit at `N = 1`, `T = 1` in the
bounded-chunking variant, and `hits = 1` of `total = 2` at `N = 2`, `T = 1`
in the equal-split variant. -/
theorem c10_witness :
    List.Forall₂ (· ≤ ·) [1] (Chunked.sizes 1 1) ∧
    inZeroFour (Chunked.approximiere_pi_result 1 (List.sum [1])) ∧
    inZeroFour (Split.berechne_pi 1 (Split.final_total 2 1)) := by
  have hs : Chunked.sizes 1 1 = [1] := by
    simp [Chunked.sizes, Chunked.intervals, Chunked.chunks, Chunked.stepBy,
      Chunked.chunk_size, CHUNK_SIZE]
  have hf : List.Forall₂ (· ≤ ·) [1] (Chunked.sizes 1 1) := by
    rw [hs]
    exact List.Forall₂.cons le_rfl List.Forall₂.nil
  refine ⟨hf, c10_range.1 1 1 [1] le_rfl le_rfl hf, ?_⟩
  exact c10_range.2 2 1 1 le_rfl (by norm_num)
    (by rw [final_total_eq]; norm_num)

end PiApprox
